import Mathlib

/-!
Verification development for the mkto-fresco incremental sync engine.

The definitions below are a shallow embedding of the TypeScript sources:
the sync orchestration (sync.ts: loadSyncState, saveSyncState, processEmail,
processBatch, sync), the Marketo client pagination loop
(marketo/client.ts: getEmailsSince), the path helpers (utils/date.ts:
toPathFormat) and the Alfresco client folder logic
(alfresco/client.ts: ensureFolderPath, nodeExists, uploadFile).
Timestamps are modelled as integer epoch milliseconds; the calendar fields
of a JavaScript Date (year, month) are carried alongside the instant, since
the code only ever reads them through the date-fns format helpers.
Network effects are modelled by explicit oracle functions (page server,
content fetch, upload failure) and the Alfresco repository by an explicit
state value that each operation threads through.
-/

namespace MktoFresco

/-- Model of a JavaScript Date: the epoch-millisecond instant plus the
calendar year and month that date-fns format (used by toPathFormat in
utils/date.ts) would render for it. Comparisons between Dates compare
instants, as JavaScript does. -/
structure JSDate where
  ms : Int
  year : Nat
  month : Nat
deriving DecidableEq, Repr

/-- Embeds the MarketoEmail record (marketo/types.ts) restricted to the
fields the sync engine reads: id, name, createdAt, updatedAt and the
optional folder.folderName (the campaign label used for placement). -/
structure MarketoEmail where
  id : Nat
  name : String
  createdAt : JSDate
  updatedAt : Int
  folderName : Option String
deriving DecidableEq, Repr

/-- Embeds MarketoEmailContent (marketo/types.ts) as returned by
MarketoClient.getEmailContent; htmlContent is optional and may be empty. -/
structure MarketoEmailContent where
  htmlContent : Option String
  subject : Option String
  fromName : Option String
  fromEmail : Option String
deriving DecidableEq, Repr

/-- Embeds one response of MarketoClient.getEmails (a
MarketoListResponse page): success flag, optional result list and the
optional moreResult continuation flag. -/
structure MarketoPage where
  success : Bool
  result : Option (List MarketoEmail)
  moreResult : Option Bool
deriving DecidableEq, Repr

/-! ### Sanitization and path formatting -/

/-- The reserved characters replaced by processEmail in sync.ts
(the regex character class of lines 115, 123 and 165). -/
def reservedChars : List Char := ['/', '\\', ':', '*', '?', '"', '<', '>', '|']

/-- One step of the sanitizing replace: a reserved character becomes a dash,
every other character is kept. -/
def sanitizeChar (c : Char) : Char := if c ∈ reservedChars then '-' else c

/-- Embeds the replace of the reserved-character regex by a dash, applied
characterwise, as in sync.ts lines 115, 123 and 165. -/
def sanitize (s : String) : String := String.mk (s.data.map sanitizeChar)

/-- The decimal digit character for n percent 10. -/
def digitChar (n : Nat) : Char := Char.ofNat (48 + n % 10)

/-- Zero-padded two-digit rendering, the date-fns MM pattern used by
toPathFormat in utils/date.ts (months are below 100). -/
def pad2 (n : Nat) : String := String.mk [digitChar (n / 10), digitChar n]

/-- Zero-padded four-digit rendering, the date-fns yyyy pattern used by
toPathFormat in utils/date.ts (calendar years handled here are below
10000). -/
def pad4 (n : Nat) : String :=
  String.mk [digitChar (n / 1000), digitChar (n / 100), digitChar (n / 10), digitChar n]

/-- Embeds toPathFormat from utils/date.ts: the year and month components
used to build the archive folder path. -/
def toPathFormat (d : JSDate) : String × String := (pad4 d.year, pad2 d.month)

/-- Decimal rendering of a natural number, the template interpolation of a
JavaScript integer id in sync.ts lines 123 and 165. -/
def natToStr (n : Nat) : String := String.mk (natDigits n) where
  natDigits (n : Nat) : List Char :=
    if n < 10 then [digitChar n]
    else natDigits (n / 10) ++ [digitChar n]
  termination_by n
  decreasing_by exact Nat.div_lt_self (by omega) (by omega)

/-! ### Sanitization lemmas -/

theorem digitChar_not_reserved (k : Nat) : digitChar k ∉ reservedChars := by
  have h : ∀ m : Fin 10, Char.ofNat (48 + m.val) ∉ reservedChars := by decide
  exact h ⟨k % 10, Nat.mod_lt _ (by omega)⟩

theorem sanitizeChar_not_reserved (c : Char) : sanitizeChar c ∉ reservedChars := by
  unfold sanitizeChar
  split
  · decide
  · assumption

theorem sanitize_not_reserved (s : String) : ∀ c ∈ (sanitize s).data, c ∉ reservedChars := by
  intro c hc
  unfold sanitize at hc
  simp only [List.mem_map] at hc
  obtain ⟨d, _, hd⟩ := hc
  exact hd ▸ sanitizeChar_not_reserved d

theorem natToStr_not_reserved (n : Nat) : ∀ c ∈ (natToStr n).data, c ∉ reservedChars := by
  intro c hc
  unfold natToStr at hc
  suffices h : ∀ m, ∀ c ∈ natToStr.natDigits m, c ∉ reservedChars from h n c hc
  intro m
  induction m using Nat.strong_induction_on with
  | _ m ih =>
    intro c hc
    unfold natToStr.natDigits at hc
    split at hc
    · simp at hc
      exact hc ▸ digitChar_not_reserved m
    · rw [List.mem_append] at hc
      rcases hc with h | h
      · exact ih (m / 10) (Nat.div_lt_self (by omega) (by omega)) c h
      · simp at h
        exact h ▸ digitChar_not_reserved m

theorem pad4_not_reserved (n : Nat) : ∀ c ∈ (pad4 n).data, c ∉ reservedChars := by
  intro c hc
  unfold pad4 at hc
  simp at hc
  rcases hc with h | h | h | h <;> exact h ▸ digitChar_not_reserved _

theorem pad2_not_reserved (n : Nat) : ∀ c ∈ (pad2 n).data, c ∉ reservedChars := by
  intro c hc
  unfold pad2 at hc
  simp at hc
  rcases hc with h | h <;> exact h ▸ digitChar_not_reserved _

theorem sanitize_length (s : String) : (sanitize s).length = s.length := by
  unfold sanitize
  rw [String.length_mk, List.length_map]
  rfl

/-! ### Placement computation (processEmail, sync.ts lines 109-123) -/

/-- The campaign label of an email: folder.folderName if present and
non-empty (JavaScript truthiness of the or-default on line 114), otherwise
the literal Uncategorized. -/
def campaignName (e : MarketoEmail) : String :=
  match e.folderName with
  | some s => if s = "" then "Uncategorized" else s
  | none => "Uncategorized"

/-- Line 115 of sync.ts: the sanitized campaign label. -/
def sanitizedCampaignName (e : MarketoEmail) : String := sanitize (campaignName e)

/-- Line 117 of sync.ts: the folder path string year/month/campaign. -/
def folderPath (e : MarketoEmail) : String :=
  (toPathFormat e.createdAt).1 ++ "/" ++ (toPathFormat e.createdAt).2 ++ "/"
    ++ sanitizedCampaignName e

/-- Line 123 of sync.ts: the html file name id-name.html with name
sanitized. -/
def emailFileName (e : MarketoEmail) : String :=
  natToStr e.id ++ "-" ++ sanitize e.name ++ ".html"

/-- Line 165 of sync.ts: the sibling metadata file name. -/
def metadataFileName (e : MarketoEmail) : String :=
  natToStr e.id ++ "-" ++ sanitize e.name ++ "-metadata.json"

/-- Embeds the split on the slash character performed by
AlfrescoClient.ensureFolderPath (alfresco/client.ts line 318), with
JavaScript split semantics at the character-list level. -/
def splitSlash : List Char → List (List Char)
  | [] => [[]]
  | c :: cs =>
    if c = '/' then [] :: splitSlash cs
    else
      match splitSlash cs with
      | [] => [[c]]
      | s :: ss => (c :: s) :: ss

/-- ensureFolderPath line 318: split the path on slashes and drop empty
parts. -/
def pathParts (path : String) : List String :=
  ((splitSlash path.data).map (fun l => String.mk l)).filter (fun q => decide (0 < q.length))

/-- The folder segments that ensureFolderPath walks for an email:
the split of folderPath. -/
def folderSegments (e : MarketoEmail) : List String := pathParts (folderPath e)

theorem splitSlash_sep (a rest : List Char) (ha : ∀ c ∈ a, c ≠ '/') :
    splitSlash (a ++ '/' :: rest) = a :: splitSlash rest := by
  induction a with
  | nil => simp [splitSlash]
  | cons c a ih =>
    have hc : c ≠ '/' := ha c (by simp)
    have ih' := ih (fun d hd => ha d (by simp [hd]))
    simp only [List.cons_append, splitSlash, if_neg hc, List.append_eq, ih']

theorem splitSlash_noSep (a : List Char) (ha : ∀ c ∈ a, c ≠ '/') : splitSlash a = [a] := by
  induction a with
  | nil => rfl
  | cons c a ih =>
    have hc : c ≠ '/' := ha c (by simp)
    have ih' := ih (fun d hd => ha d (by simp [hd]))
    simp only [splitSlash, if_neg hc, ih']

theorem campaignName_ne_empty (e : MarketoEmail) : campaignName e ≠ "" := by
  unfold campaignName
  cases e.folderName with
  | none => decide
  | some s =>
    show (if s = "" then "Uncategorized" else s) ≠ ""
    by_cases h : s = ""
    · rw [if_pos h]; decide
    · rw [if_neg h]; exact h

/-- The folder segments of an email are exactly the year, month and
sanitized campaign label, in that order. -/
theorem folderSegments_eq (e : MarketoEmail) :
    folderSegments e =
      [pad4 e.createdAt.year, pad2 e.createdAt.month, sanitizedCampaignName e] := by
  have hyear : ∀ c ∈ (pad4 e.createdAt.year).data, c ≠ '/' := by
    intro c hc heq
    exact pad4_not_reserved _ c hc (heq ▸ (by decide : ('/' : Char) ∈ reservedChars))
  have hmonth : ∀ c ∈ (pad2 e.createdAt.month).data, c ≠ '/' := by
    intro c hc heq
    exact pad2_not_reserved _ c hc (heq ▸ (by decide : ('/' : Char) ∈ reservedChars))
  have hcamp : ∀ c ∈ (sanitizedCampaignName e).data, c ≠ '/' := by
    intro c hc heq
    exact sanitize_not_reserved _ c hc (heq ▸ (by decide : ('/' : Char) ∈ reservedChars))
  have hdata : (folderPath e).data =
      (pad4 e.createdAt.year).data ++ '/' ::
        ((pad2 e.createdAt.month).data ++ '/' :: (sanitizedCampaignName e).data) := by
    simp [folderPath, toPathFormat]
  have hsplit : splitSlash (folderPath e).data =
      [(pad4 e.createdAt.year).data, (pad2 e.createdAt.month).data,
        (sanitizedCampaignName e).data] := by
    rw [hdata, splitSlash_sep _ _ hyear, splitSlash_sep _ _ hmonth,
      splitSlash_noSep _ hcamp]
  have hlen : 0 < (sanitizedCampaignName e).length := by
    have h1 : (sanitizedCampaignName e).length = (campaignName e).length :=
      sanitize_length _
    have h2 : campaignName e ≠ "" := campaignName_ne_empty e
    rw [h1]
    cases h3 : campaignName e with
    | mk l =>
      cases l with
      | nil => exact absurd (h3.trans (by decide)) h2
      | cons c cs => simp [String.length]
  unfold folderSegments pathParts
  rw [hsplit]
  simp only [List.map_cons, List.map_nil]
  have e1 : String.mk (pad4 e.createdAt.year).data = pad4 e.createdAt.year := rfl
  have e2 : String.mk (pad2 e.createdAt.month).data = pad2 e.createdAt.month := rfl
  have e3 : String.mk (sanitizedCampaignName e).data = sanitizedCampaignName e := rfl
  rw [e1, e2, e3]
  have l1 : 0 < (pad4 e.createdAt.year).length := by simp [pad4, String.length]
  have l2 : 0 < (pad2 e.createdAt.month).length := by simp [pad2, String.length]
  simp [List.filter, l1, l2, hlen]

/-! ### Target repository state (Alfresco client effects) -/

/-- A node reference in the target repository: the folder it lives in
(as the segment path below the base path) and its name. -/
structure NodeRef where
  folder : List String
  name : String
deriving DecidableEq, Repr

/-- The observable state of the target repository below the base path:
which folders exist (as segment paths) and which files exist.
AlfrescoClient.nodeExists is membership in files; uploadFile appends;
ensureFolderPath inserts the missing ancestors. -/
structure TargetState where
  folders : List (List String)
  files : List NodeRef
deriving DecidableEq, Repr

/-- Insert an element at the end unless already present — the
existence-check-then-create pattern of ensureFolderPath
(alfresco/client.ts lines 320-330). -/
def insertIfAbsent [DecidableEq α] (a : α) (l : List α) : List α :=
  if a ∈ l then l else l ++ [a]

/-- The non-empty ancestor prefixes of a segment path, in the order
ensureFolderPath visits them. -/
def ancestorPaths (segs : List String) : List (List String) :=
  (List.range segs.length).map (fun i => segs.take (i + 1))

/-- Embeds the folder-creating walk of AlfrescoClient.ensureFolderPath:
every ancestor of the segment path is created when absent. -/
def ensureFolders (fs : List (List String)) (segs : List String) : List (List String) :=
  (ancestorPaths segs).foldl (fun acc p => insertIfAbsent p acc) fs

/-- The id-name.html node of an email in its archive folder. -/
def htmlNodeRef (e : MarketoEmail) : NodeRef := ⟨folderSegments e, emailFileName e⟩

/-- The sibling metadata node of an email. -/
def metaNodeRef (e : MarketoEmail) : NodeRef := ⟨folderSegments e, metadataFileName e⟩

/-! ### processEmail (sync.ts lines 94-200) -/

/-- The oracles standing for the network collaborators of processEmail:
the Marketo content fetch for an email id (none embeds a null return of
getEmailContent) and whether the Alfresco upload of that id throws (the
exception caught at sync.ts line 193). -/
structure Env where
  content : Nat → Option MarketoEmailContent
  uploadFails : Nat → Bool

/-- JavaScript truthiness of content and content.htmlContent at sync.ts
line 104: the fetch returned an object whose htmlContent is a non-empty
string. -/
def hasHtml : Option MarketoEmailContent → Bool
  | none => false
  | some c =>
    match c.htmlContent with
    | none => false
    | some h => h != ""

/-- The result shape of processEmail: a success flag and an optional
node, exactly as the TypeScript return type. -/
structure ProcResult where
  success : Bool
  node : Option NodeRef
deriving DecidableEq, Repr

/-- Embeds processEmail (sync.ts lines 94-200). Steps: fetch content and
fail when there is no html body (lines 103-107); ensure the archive folder
path (line 120); return the existing node when the name-existence check
finds one (lines 124-132); otherwise upload the html node and the metadata
node (lines 148-192), with an upload exception caught and converted to a
failure (lines 193-199) after the folders were already ensured. -/
def processEmail (env : Env) (st : TargetState) (e : MarketoEmail) :
    TargetState × ProcResult :=
  if hasHtml (env.content e.id) then
    if htmlNodeRef e ∈ st.files then
      ({ st with folders := ensureFolders st.folders (folderSegments e) },
        ⟨true, some (htmlNodeRef e)⟩)
    else if env.uploadFails e.id then
      ({ st with folders := ensureFolders st.folders (folderSegments e) }, ⟨false, none⟩)
    else
      ({ folders := ensureFolders st.folders (folderSegments e),
         files := st.files ++ [htmlNodeRef e, metaNodeRef e] },
        ⟨true, some (htmlNodeRef e)⟩)
  else (st, ⟨false, none⟩)

/-! ### processBatch (sync.ts lines 205-247) -/

/-- The counters of the batch loop. -/
structure BatchCounters where
  processed : Nat
  failed : Nat
  skipped : Nat
  failedIds : List Nat
deriving DecidableEq, Repr

/-- One iteration of the inner loop of processBatch (sync.ts lines
225-241): run processEmail and classify its result into exactly one of the
three counters. -/
def stepEmail (env : Env) (acc : TargetState × BatchCounters) (e : MarketoEmail) :
    TargetState × BatchCounters :=
  if (processEmail env acc.1 e).2.success then
    if (processEmail env acc.1 e).2.node.isSome then
      ((processEmail env acc.1 e).1, { acc.2 with processed := acc.2.processed + 1 })
    else ((processEmail env acc.1 e).1, { acc.2 with skipped := acc.2.skipped + 1 })
  else
    ((processEmail env acc.1 e).1,
      { acc.2 with failed := acc.2.failed + 1, failedIds := acc.2.failedIds ++ [e.id] })

/-- The sequential run over one list of emails. -/
def processList (env : Env) (acc : TargetState × BatchCounters)
    (emails : List MarketoEmail) : TargetState × BatchCounters :=
  emails.foldl (stepEmail env) acc

/-- The batch slices of the outer loop of processBatch (sync.ts line 216-217):
slice i to i plus batchSize, advancing by batchSize. Faithful to the source
for a positive batch size (the configured default is 50). -/
def chunks (bs : Nat) : List α → List (List α)
  | [] => []
  | a :: l => (a :: l.take (bs - 1)) :: chunks bs (l.drop (bs - 1))
termination_by l => l.length
decreasing_by simp [List.length_drop]; omega

/-- Embeds processBatch (sync.ts lines 205-247): zeroed counters, then the
inner loop over each batch slice in order. -/
def processBatch (env : Env) (st : TargetState) (emails : List MarketoEmail)
    (bs : Nat) : TargetState × BatchCounters :=
  (chunks bs emails).foldl (fun acc batch => processList env acc batch) (st, ⟨0, 0, 0, []⟩)

/-- The per-item outcome trace of a sequential run: which ProcResult each
email got, in order, threading the target state exactly as the loop does. -/
def processTrace (env : Env) (st : TargetState) :
    List MarketoEmail → List (MarketoEmail × ProcResult)
  | [] => []
  | e :: rest =>
    let p := processEmail env st e
    (e, p.2) :: processTrace env p.1 rest

/-- Count of items the trace reports as newly or previously archived. -/
def traceProcessed (tr : List (MarketoEmail × ProcResult)) : Nat :=
  tr.countP (fun p => p.2.success && p.2.node.isSome)

/-- Count of items the trace reports as failed. -/
def traceFailed (tr : List (MarketoEmail × ProcResult)) : Nat :=
  tr.countP (fun p => !p.2.success)

/-- Count of items the trace reports as skipped (success with no node). -/
def traceSkipped (tr : List (MarketoEmail × ProcResult)) : Nat :=
  tr.countP (fun p => p.2.success && p.2.node.isNone)

/-- The ids of the items the trace reports as failed, in order. -/
def traceFailedIds (tr : List (MarketoEmail × ProcResult)) : List Nat :=
  (tr.filter (fun p => !p.2.success)).map (fun p => p.1.id)

theorem chunks_flatten (bs : Nat) (l : List α) : (chunks bs l).flatten = l := by
  generalize hn : l.length = n
  induction n using Nat.strong_induction_on generalizing l with
  | _ n ih =>
    cases l with
    | nil => simp [chunks]
    | cons a l =>
      rw [chunks, List.flatten_cons]
      have hlt : (l.drop (bs - 1)).length < n := by
        subst hn
        simp [List.length_drop]
        omega
      rw [ih _ hlt _ rfl]
      rw [List.cons_append, List.take_append_drop]

/-- The batched loop is the plain sequential loop over all emails. -/
theorem processBatch_eq_processList (env : Env) (st : TargetState)
    (emails : List MarketoEmail) (bs : Nat) :
    processBatch env st emails bs = processList env (st, ⟨0, 0, 0, []⟩) emails := by
  unfold processBatch processList
  rw [← List.foldl_flatten, chunks_flatten]

/-- The trace visits exactly the input emails in order. -/
theorem processTrace_fst (env : Env) (emails : List MarketoEmail) :
    ∀ st, (processTrace env st emails).map Prod.fst = emails := by
  induction emails with
  | nil => intro st; rfl
  | cons e rest ih =>
    intro st
    simp only [processTrace, List.map_cons, ih]

/-- The counters of a sequential run are read off the trace. -/
theorem processList_counts (env : Env) (emails : List MarketoEmail) :
    ∀ st b, (processList env (st, b) emails).2 =
      ⟨b.processed + traceProcessed (processTrace env st emails),
       b.failed + traceFailed (processTrace env st emails),
       b.skipped + traceSkipped (processTrace env st emails),
       b.failedIds ++ traceFailedIds (processTrace env st emails)⟩ := by
  induction emails with
  | nil =>
    intro st b
    simp [processList, processTrace, traceProcessed, traceFailed, traceSkipped,
      traceFailedIds]
  | cons e rest ih =>
    intro st b
    have hstep : processList env (st, b) (e :: rest) =
        processList env (stepEmail env (st, b) e) rest := rfl
    rw [hstep]
    unfold stepEmail
    rcases hpe : processEmail env st e with ⟨st2, r⟩
    rcases r with ⟨success, node⟩
    have htr : processTrace env st (e :: rest) =
        (e, (⟨success, node⟩ : ProcResult)) :: processTrace env st2 rest := by
      simp [processTrace, hpe]
    rw [htr]
    cases success with
    | false =>
      simp only [hpe, Bool.false_eq_true, if_false, eq_self_iff_true, if_true]
      rw [ih st2]
      simp [traceProcessed, traceFailed, traceSkipped, traceFailedIds,
        List.countP_cons, List.filter_cons]
      omega
    | true =>
      cases node with
      | some n =>
        simp only [hpe, eq_self_iff_true, if_true, Option.isSome_some]
        rw [ih st2]
        simp [traceProcessed, traceFailed, traceSkipped, traceFailedIds,
          List.countP_cons, List.filter_cons]
        omega
      | none =>
        simp only [hpe, eq_self_iff_true, if_true, Option.isSome_none,
          Bool.false_eq_true, if_false]
        rw [ih st2]
        simp [traceProcessed, traceFailed, traceSkipped, traceFailedIds,
          List.countP_cons, List.filter_cons]
        omega

/-- Every trace entry falls in exactly one of the three classes. -/
theorem trace_partition (tr : List (MarketoEmail × ProcResult)) :
    traceProcessed tr + traceFailed tr + traceSkipped tr = tr.length := by
  induction tr with
  | nil => rfl
  | cons p tr ih =>
    rcases p with ⟨e, ⟨success, node⟩⟩
    unfold traceProcessed traceFailed traceSkipped at *
    rw [List.countP_cons, List.countP_cons, List.countP_cons]
    cases success with
    | false => simp; omega
    | true => cases node with
      | some n => simp; omega
      | none => simp; omega

/-! ### MarketoClient.getEmailsSince (marketo/client.ts lines 343-380) -/

/-- A page response is usable when success is true and the result field is
present — otherwise the loop at lines 354-357 breaks. -/
def pageOk (p : MarketoPage) : Bool := p.success && p.result.isSome

/-- The loop stops after a page unless the page is usable and carries
moreResult equal to true (line 367). -/
def pageStops (p : MarketoPage) : Bool := !(pageOk p && (p.moreResult == some true))

/-- Embeds the while loop of getEmailsSince: starting at page index idx,
fetch pages, filter each usable page by updatedAt at least since (lines
360-363, keeping ties), and continue exactly while moreResult is true.
The fuel argument bounds the number of iterations; every theorem below
supplies enough fuel for the loop to have stopped on its own. Returns the
accumulated emails and the number of pages requested. -/
def getEmailsSinceGo (server : Nat → MarketoPage) (since : Int) :
    Nat → Nat → List MarketoEmail × Nat
  | _, 0 => ([], 0)
  | idx, fuel + 1 =>
    let p := server idx
    match p.result with
    | none => ([], 1)
    | some items =>
      if p.success then
        let recent := items.filter (fun e => decide (since ≤ e.updatedAt))
        if p.moreResult == some true then
          let rest := getEmailsSinceGo server since (idx + 1) fuel
          (recent ++ rest.1, rest.2 + 1)
        else (recent, 1)
      else ([], 1)

/-- The email list getEmailsSince returns. -/
def getEmailsSince (server : Nat → MarketoPage) (since : Int) (fuel : Nat) :
    List MarketoEmail :=
  (getEmailsSinceGo server since 0 fuel).1

/-- How many pages the loop requested. -/
def requestCount (server : Nat → MarketoPage) (since : Int) (fuel : Nat) : Nat :=
  (getEmailsSinceGo server since 0 fuel).2

/-- The raw items of the pages the loop accepted (the result arrays of the
usable pages it walked), before the local updatedAt filter. -/
def fetchedItemsGo (server : Nat → MarketoPage) : Nat → Nat → List MarketoEmail
  | _, 0 => []
  | idx, fuel + 1 =>
    let p := server idx
    match p.result with
    | none => []
    | some items =>
      if p.success then
        if p.moreResult == some true then items ++ fetchedItemsGo server (idx + 1) fuel
        else items
      else []

/-- The raw fetched items of a run of the pagination loop. -/
def fetchedItems (server : Nat → MarketoPage) (fuel : Nat) : List MarketoEmail :=
  fetchedItemsGo server 0 fuel

/-! ### Sync coordinator (sync.ts lines 252-347) -/

/-- The result record of sync (sync.ts lines 9-18), with instants as epoch
milliseconds. -/
structure SyncResult where
  totalEmails : Nat
  processedEmails : Nat
  failedEmails : Nat
  skippedEmails : Nat
  failedEmailIds : List Nat
  startMs : Int
  endMs : Int
  duration : Int
deriving DecidableEq, Repr

/-- The inputs of one sync run: the start and end instants the two now()
calls return, the loaded sync state (the lastSyncTimestamp the marker held,
none on a fresh start, as loadSyncState produces), the instant
getDaysAgo(lookbackDays) evaluates to, the Marketo page server, the
processEmail oracles, the configured batch size and whether the marker save
throws inside saveSyncState. -/
structure SyncEnv where
  startMs : Int
  endMs : Int
  state : Option Int
  lookbackMs : Int
  server : Nat → MarketoPage
  content : Nat → Option MarketoEmailContent
  uploadFails : Nat → Bool
  batchSize : Nat
  saveFails : Bool

/-- The processEmail oracles of a sync environment. -/
def SyncEnv.toEnv (env : SyncEnv) : Env := ⟨env.content, env.uploadFails⟩

/-- sync.ts lines 286-296: the sinceDate is the stored lastSyncTimestamp
when present, otherwise getDaysAgo(lookbackDays). -/
def resolveSince (state : Option Int) (lookbackMs : Int) : Int :=
  match state with
  | some t => t
  | none => lookbackMs

/-- The candidate list a sync run fetches (sync.ts line 300). -/
def syncEmails (env : SyncEnv) (fuel : Nat) : List MarketoEmail :=
  getEmailsSince env.server (resolveSince env.state env.lookbackMs) fuel

/-- What one sync run produces: the returned SyncResult, the target
repository state afterwards, the timestamp argument passed to
saveSyncState (none when the early empty-list return skips the save) and
the timestamp the marker durably holds after the run (none when the save
was skipped or its write threw — saveSyncState swallows that error at
sync.ts lines 85-88). -/
structure SyncOutput where
  result : SyncResult
  finalState : TargetState
  saveArg : Option Int
  markerWritten : Option Int

/-- Embeds sync (sync.ts lines 252-347): resolve the window, fetch the
candidates, return early with zero counters when there are none (lines
305-310), otherwise run the batch, save the marker with
toISOString(startTime) (lines 326-327) and assemble the result. -/
def sync (env : SyncEnv) (st0 : TargetState) (fuel : Nat) : SyncOutput :=
  let emails := syncEmails env fuel
  if emails.isEmpty then
    { result := ⟨emails.length, 0, 0, 0, [], env.startMs, env.endMs,
        env.endMs - env.startMs⟩,
      finalState := st0, saveArg := none, markerWritten := none }
  else
    let out := processBatch env.toEnv st0 emails env.batchSize
    { result := ⟨emails.length, out.2.processed, out.2.failed, out.2.skipped,
        out.2.failedIds, env.startMs, env.endMs, env.endMs - env.startMs⟩,
      finalState := out.1,
      saveArg := some env.startMs,
      markerWritten := if env.saveFails then none else some env.startMs }

/-! ### Retry/Backoff executor (utils/retry.ts) -/

/-- Embeds the RetryOptions record of utils/retry.ts, here already merged
with the defaults: the retry entry point spreads DEFAULT_RETRY_OPTIONS
under the caller's partial options before the loop starts, so the loop
only ever sees a complete record. -/
structure RetryOptions where
  maxRetries : Nat
  initialDelayMs : Nat
  maxDelayMs : Nat
  backoffMultiplier : Nat
deriving DecidableEq, Repr

/-- DEFAULT_RETRY_OPTIONS of utils/retry.ts: 3 attempts, 1000ms initial
delay, 30000ms cap, doubling. -/
def defaultRetryOptions : RetryOptions := ⟨3, 1000, 30000, 2⟩

/-- Embeds calculateDelay of utils/retry.ts: initialDelayMs times
backoffMultiplier to the power attempt minus one, capped at maxDelayMs. -/
def calculateDelay (attempt : Nat) (opts : RetryOptions) : Nat :=
  min (opts.initialDelayMs * opts.backoffMultiplier ^ (attempt - 1)) opts.maxDelayMs

/-- The observable behaviour of one retry run: the final outcome, the
backoff delays slept before each non-final retry, in order, and how many
times the wrapped operation was invoked. The error side of the outcome is
an Option because the post-loop throw of lastError in utils/retry.ts is
reached only when maxRetries is below one, where lastError is still
undefined: that throw is embedded as error none, while a caught and
rethrown operation error is error (some e). -/
structure RetryTrace (E A : Type) where
  outcome : Except (Option E) A
  delays : List Nat
  attemptsMade : Nat

/-- Embeds the for loop of retry in utils/retry.ts, from a given 1-based
attempt number: while the attempt counter is within maxRetries, invoke the
operation; return its value on success; on an error, rethrow it unchanged
when this was the final attempt, otherwise sleep calculateDelay and
continue with the next attempt. When the counter exceeds maxRetries the
loop exits and the function throws the accumulated lastError — which at
that point was never assigned, since any iteration that catches an error
inside the final attempt already threw. The operation is an oracle from
the attempt number to that invocation's outcome. -/
def retryLoop (op : Nat → Except E A) (opts : RetryOptions) (attempt : Nat) :
    RetryTrace E A :=
  if _h : attempt ≤ opts.maxRetries then
    match op attempt with
    | .ok a => ⟨.ok a, [], 1⟩
    | .error e =>
      if attempt = opts.maxRetries then ⟨.error (some e), [], 1⟩
      else
        ⟨(retryLoop op opts (attempt + 1)).outcome,
          calculateDelay attempt opts :: (retryLoop op opts (attempt + 1)).delays,
          (retryLoop op opts (attempt + 1)).attemptsMade + 1⟩
  else ⟨.error none, [], 0⟩
termination_by opts.maxRetries + 1 - attempt
decreasing_by all_goals omega

/-- Embeds retry of utils/retry.ts: run the loop from attempt 1. -/
def retryExec (op : Nat → Except E A) (opts : RetryOptions) : RetryTrace E A :=
  retryLoop op opts 1

/-! ### Pagination lemmas -/

theorem pageStops_false (p : MarketoPage) (h : pageStops p = false) :
    p.success = true ∧ (∃ items, p.result = some items) ∧ p.moreResult = some true := by
  unfold pageStops pageOk at h
  simp only [Bool.not_eq_false', Bool.and_eq_true, beq_iff_eq] at h
  obtain ⟨⟨hs, hr⟩, hm⟩ := h
  exact ⟨hs, Option.isSome_iff_exists.mp hr, hm⟩

theorem getEmailsSinceGo_cont (server : Nat → MarketoPage) (since : Int)
    (idx fuel : Nat) (items : List MarketoEmail)
    (hres : (server idx).result = some items)
    (hsucc : (server idx).success = true)
    (hmore : (server idx).moreResult = some true) :
    getEmailsSinceGo server since idx (fuel + 1) =
      (items.filter (fun e => decide (since ≤ e.updatedAt)) ++
        (getEmailsSinceGo server since (idx + 1) fuel).1,
       (getEmailsSinceGo server since (idx + 1) fuel).2 + 1) := by
  conv_lhs => rw [getEmailsSinceGo]
  simp [hres, hsucc, hmore]

theorem getEmailsSinceGo_stop_case (server : Nat → MarketoPage) (since : Int)
    (idx fuel : Nat) (hstop : pageStops (server idx) = true) :
    getEmailsSinceGo server since idx (fuel + 1) = getEmailsSinceGo server since idx 1 := by
  rw [getEmailsSinceGo, getEmailsSinceGo]
  unfold pageStops pageOk at hstop
  rcases hres : (server idx).result with _ | items
  · simp [hres]
  · cases hsucc : (server idx).success with
    | false => simp [hres, hsucc]
    | true =>
      have hmore : ((server idx).moreResult == some true) = false := by
        rw [hres, hsucc] at hstop
        simpa using hstop
      simp [hres, hsucc, hmore]

theorem getEmailsSinceGo_stop_count (server : Nat → MarketoPage) (since : Int)
    (idx fuel : Nat) (hstop : pageStops (server idx) = true) :
    (getEmailsSinceGo server since idx (fuel + 1)).2 = 1 := by
  rw [getEmailsSinceGo_stop_case server since idx fuel hstop]
  rw [getEmailsSinceGo]
  unfold pageStops pageOk at hstop
  rcases hres : (server idx).result with _ | items
  · simp [hres]
  · cases hsucc : (server idx).success with
    | false => simp [hres, hsucc]
    | true =>
      have hmore : ((server idx).moreResult == some true) = false := by
        rw [hres, hsucc] at hstop
        simpa using hstop
      simp [hres, hsucc, hmore]

theorem getEmailsSinceGo_stable (server : Nat → MarketoPage) (since : Int) :
    ∀ (j idx f1 f2 : Nat), pageStops (server (idx + j)) = true → j < f1 → j < f2 →
      getEmailsSinceGo server since idx f1 = getEmailsSinceGo server since idx f2 := by
  intro j
  induction j with
  | zero =>
    intro idx f1 f2 hstop h1 h2
    obtain ⟨a, rfl⟩ : ∃ a, f1 = a + 1 := ⟨f1 - 1, by omega⟩
    obtain ⟨b, rfl⟩ : ∃ b, f2 = b + 1 := ⟨f2 - 1, by omega⟩
    rw [Nat.add_zero] at hstop
    rw [getEmailsSinceGo_stop_case server since idx a hstop,
      getEmailsSinceGo_stop_case server since idx b hstop]
  | succ j ih =>
    intro idx f1 f2 hstop h1 h2
    obtain ⟨a, rfl⟩ : ∃ a, f1 = a + 1 := ⟨f1 - 1, by omega⟩
    obtain ⟨b, rfl⟩ : ∃ b, f2 = b + 1 := ⟨f2 - 1, by omega⟩
    cases hsp : pageStops (server idx) with
    | true =>
      rw [getEmailsSinceGo_stop_case server since idx a hsp,
        getEmailsSinceGo_stop_case server since idx b hsp]
    | false =>
      obtain ⟨hsucc, ⟨items, hres⟩, hmore⟩ := pageStops_false _ hsp
      rw [getEmailsSinceGo_cont server since idx a items hres hsucc hmore,
        getEmailsSinceGo_cont server since idx b items hres hsucc hmore]
      have hnext : pageStops (server (idx + 1 + j)) = true := by
        rw [show idx + 1 + j = idx + (j + 1) from by omega]
        exact hstop
      rw [ih (idx + 1) a b hnext (by omega) (by omega)]

theorem getEmailsSinceGo_count_spec (server : Nat → MarketoPage) (since : Int) :
    ∀ (j idx fuel : Nat), pageStops (server (idx + j)) = true → j < fuel →
      1 ≤ (getEmailsSinceGo server since idx fuel).2 ∧
      (getEmailsSinceGo server since idx fuel).2 ≤ j + 1 ∧
      pageStops (server (idx + ((getEmailsSinceGo server since idx fuel).2 - 1))) = true ∧
      (∀ i, i + 1 < (getEmailsSinceGo server since idx fuel).2 →
        pageStops (server (idx + i)) = false) := by
  intro j
  induction j with
  | zero =>
    intro idx fuel hstop hf
    obtain ⟨a, rfl⟩ : ∃ a, fuel = a + 1 := ⟨fuel - 1, by omega⟩
    rw [Nat.add_zero] at hstop
    have hc := getEmailsSinceGo_stop_count server since idx a hstop
    rw [hc]
    refine ⟨by omega, by omega, ?_, by omega⟩
    simpa using hstop
  | succ j ih =>
    intro idx fuel hstop hf
    obtain ⟨a, rfl⟩ : ∃ a, fuel = a + 1 := ⟨fuel - 1, by omega⟩
    cases hsp : pageStops (server idx) with
    | true =>
      have hc := getEmailsSinceGo_stop_count server since idx a hsp
      rw [hc]
      refine ⟨by omega, by omega, ?_, by omega⟩
      simpa using hsp
    | false =>
      obtain ⟨hsucc, ⟨items, hres⟩, hmore⟩ := pageStops_false _ hsp
      rw [getEmailsSinceGo_cont server since idx a items hres hsucc hmore]
      have hnext : pageStops (server (idx + 1 + j)) = true := by
        rw [show idx + 1 + j = idx + (j + 1) from by omega]
        exact hstop
      obtain ⟨ih1, ih2, ih3, ih4⟩ := ih (idx + 1) a hnext (by omega)
      refine ⟨by omega, by omega, ?_, ?_⟩
      · have harith : idx + ((getEmailsSinceGo server since (idx + 1) a).2 + 1 - 1) =
            idx + 1 + ((getEmailsSinceGo server since (idx + 1) a).2 - 1) := by omega
        rw [harith]
        exact ih3
      · intro i hi
        cases i with
        | zero => simpa using hsp
        | succ i =>
          have harith : idx + (i + 1) = idx + 1 + i := by omega
          rw [harith]
          exact ih4 i (by omega)

theorem getEmailsSinceGo_filter (server : Nat → MarketoPage) (since : Int) :
    ∀ (fuel idx : Nat), (getEmailsSinceGo server since idx fuel).1 =
      (fetchedItemsGo server idx fuel).filter (fun e => decide (since ≤ e.updatedAt)) := by
  intro fuel
  induction fuel with
  | zero => intro idx; rfl
  | succ fuel ih =>
    intro idx
    rw [getEmailsSinceGo, fetchedItemsGo]
    rcases hres : (server idx).result with _ | items
    · simp [hres]
    · cases hsucc : (server idx).success with
      | false => simp [hres, hsucc]
      | true =>
        cases hmore : ((server idx).moreResult == some true) with
        | false => simp [hres, hsucc, hmore]
        | true => simp [hres, hsucc, hmore, List.filter_append, ih]

/-! ### Repository-state lemmas for the de-duplication argument -/

theorem insertIfAbsent_sub [DecidableEq α] (a : α) (l : List α) :
    ∀ x ∈ l, x ∈ insertIfAbsent a l := by
  intro x hx
  unfold insertIfAbsent
  split
  · exact hx
  · exact List.mem_append_left _ hx

theorem insertIfAbsent_self [DecidableEq α] (a : α) (l : List α) :
    a ∈ insertIfAbsent a l := by
  unfold insertIfAbsent
  split
  · assumption
  · exact List.mem_append_right _ (by simp)

theorem insertIfAbsent_of_mem [DecidableEq α] (a : α) (l : List α) (h : a ∈ l) :
    insertIfAbsent a l = l := by
  unfold insertIfAbsent
  rw [if_pos h]

theorem foldl_insert_sub [DecidableEq α] (ps : List α) :
    ∀ (fs : List α) (x : α), x ∈ fs →
      x ∈ ps.foldl (fun acc p => insertIfAbsent p acc) fs := by
  induction ps with
  | nil => intro fs x hx; exact hx
  | cons p ps ih => intro fs x hx; exact ih _ x (insertIfAbsent_sub p fs x hx)

theorem foldl_insert_mem [DecidableEq α] (ps : List α) :
    ∀ (fs : List α) (p : α), p ∈ ps →
      p ∈ ps.foldl (fun acc q => insertIfAbsent q acc) fs := by
  induction ps with
  | nil => intro fs p hp; cases hp
  | cons q ps ih =>
    intro fs p hp
    rcases List.mem_cons.mp hp with rfl | hp
    · exact foldl_insert_sub ps _ p (insertIfAbsent_self p fs)
    · exact ih _ p hp

theorem foldl_insert_id [DecidableEq α] (ps : List α) :
    ∀ fs : List α, (∀ p ∈ ps, p ∈ fs) →
      ps.foldl (fun acc q => insertIfAbsent q acc) fs = fs := by
  induction ps with
  | nil => intro fs _; rfl
  | cons q ps ih =>
    intro fs h
    have hq : q ∈ fs := h q (by simp)
    show ps.foldl _ (insertIfAbsent q fs) = fs
    rw [insertIfAbsent_of_mem q fs hq]
    exact ih fs (fun p hp => h p (by simp [hp]))

theorem ensureFolders_sub (fs : List (List String)) (segs : List String) :
    ∀ x ∈ fs, x ∈ ensureFolders fs segs :=
  fun x hx => foldl_insert_sub _ fs x hx

theorem ensureFolders_covers (fs : List (List String)) (segs : List String) :
    ∀ p ∈ ancestorPaths segs, p ∈ ensureFolders fs segs :=
  fun p hp => foldl_insert_mem _ fs p hp

theorem ensureFolders_id (fs : List (List String)) (segs : List String)
    (h : ∀ p ∈ ancestorPaths segs, p ∈ fs) : ensureFolders fs segs = fs :=
  foldl_insert_id _ fs h

/-- An email is successfully materializable: its content fetch returns an
html body and its upload does not throw. -/
def goodEmail (env : Env) (e : MarketoEmail) : Prop :=
  hasHtml (env.content e.id) = true ∧ env.uploadFails e.id = false

/-- An email is already archived in a repository state: its html node
exists and so do all its folder ancestors. -/
def archivedIn (st : TargetState) (e : MarketoEmail) : Prop :=
  htmlNodeRef e ∈ st.files ∧ ∀ p ∈ ancestorPaths (folderSegments e), p ∈ st.folders

theorem processEmail_files_sub (env : Env) (st : TargetState) (e : MarketoEmail) :
    ∀ x ∈ st.files, x ∈ (processEmail env st e).1.files := by
  intro x hx
  unfold processEmail
  split_ifs with h1 h2 h3
  · exact hx
  · exact hx
  · exact List.mem_append_left _ hx
  · exact hx

theorem processEmail_folders_sub (env : Env) (st : TargetState) (e : MarketoEmail) :
    ∀ x ∈ st.folders, x ∈ (processEmail env st e).1.folders := by
  intro x hx
  unfold processEmail
  split_ifs with h1 h2 h3
  · exact ensureFolders_sub _ _ x hx
  · exact ensureFolders_sub _ _ x hx
  · exact ensureFolders_sub _ _ x hx
  · exact hx

theorem processEmail_covers (env : Env) (st : TargetState) (e : MarketoEmail)
    (hg : goodEmail env e) : archivedIn (processEmail env st e).1 e := by
  obtain ⟨hh, hu⟩ := hg
  unfold processEmail
  rw [if_pos hh]
  by_cases h2 : htmlNodeRef e ∈ st.files
  · rw [if_pos h2]
    exact ⟨h2, fun p hp => ensureFolders_covers _ _ p hp⟩
  · rw [if_neg h2, if_neg (by simp [hu])]
    exact ⟨List.mem_append_right _ (by simp), fun p hp => ensureFolders_covers _ _ p hp⟩

theorem processEmail_already (env : Env) (st : TargetState) (e : MarketoEmail)
    (hh : hasHtml (env.content e.id) = true) (ha : archivedIn st e) :
    processEmail env st e = (st, ⟨true, some (htmlNodeRef e)⟩) := by
  obtain ⟨hf, hfo⟩ := ha
  rcases st with ⟨fo, fi⟩
  unfold processEmail
  have hens : ensureFolders fo (folderSegments e) = fo := ensureFolders_id _ _ hfo
  rw [if_pos hh, if_pos hf]
  simp only [hens]

theorem stepEmail_state (env : Env) (st : TargetState) (b : BatchCounters)
    (e : MarketoEmail) : (stepEmail env (st, b) e).1 = (processEmail env st e).1 := by
  unfold stepEmail
  split_ifs <;> rfl

theorem processList_files_sub (env : Env) (emails : List MarketoEmail) :
    ∀ (acc : TargetState × BatchCounters), ∀ x ∈ acc.1.files,
      x ∈ (processList env acc emails).1.files := by
  induction emails with
  | nil => intro acc x hx; exact hx
  | cons e rest ih =>
    intro acc x hx
    show x ∈ (processList env (stepEmail env acc e) rest).1.files
    apply ih
    rcases acc with ⟨st, b⟩
    rw [stepEmail_state]
    exact processEmail_files_sub env st e x hx

theorem processList_folders_sub (env : Env) (emails : List MarketoEmail) :
    ∀ (acc : TargetState × BatchCounters), ∀ x ∈ acc.1.folders,
      x ∈ (processList env acc emails).1.folders := by
  induction emails with
  | nil => intro acc x hx; exact hx
  | cons e rest ih =>
    intro acc x hx
    show x ∈ (processList env (stepEmail env acc e) rest).1.folders
    apply ih
    rcases acc with ⟨st, b⟩
    rw [stepEmail_state]
    exact processEmail_folders_sub env st e x hx

theorem processList_covers (env : Env) (emails : List MarketoEmail) :
    ∀ (acc : TargetState × BatchCounters), (∀ e ∈ emails, goodEmail env e) →
      ∀ e ∈ emails, archivedIn (processList env acc emails).1 e := by
  induction emails with
  | nil => intro acc _ e he; cases he
  | cons a rest ih =>
    intro acc hg e he
    rcases List.mem_cons.mp he with rfl | he
    · have h1 : archivedIn (stepEmail env acc e).1 e := by
        rcases acc with ⟨st, b⟩
        rw [stepEmail_state]
        exact processEmail_covers env st e (hg e (by simp))
      obtain ⟨hf, hfo⟩ := h1
      exact ⟨processList_files_sub env rest _ _ hf,
        fun p hp => processList_folders_sub env rest _ _ (hfo p hp)⟩
    · exact ih _ (fun x hx => hg x (by simp [hx])) e he

theorem processList_all_already (env : Env) (st : TargetState)
    (emails : List MarketoEmail)
    (h : ∀ e ∈ emails, hasHtml (env.content e.id) = true ∧ archivedIn st e) :
    ∀ b, processList env (st, b) emails =
      (st, ⟨b.processed + emails.length, b.failed, b.skipped, b.failedIds⟩) := by
  induction emails with
  | nil => intro b; simp [processList]
  | cons e rest ih =>
    intro b
    have he := h e (by simp)
    have hstep : stepEmail env (st, b) e =
        (st, { b with processed := b.processed + 1 }) := by
      unfold stepEmail
      simp [processEmail_already env st e he.1 he.2]
    show processList env (stepEmail env (st, b) e) rest = _
    rw [hstep, ih (fun x hx => h x (by simp [hx]))]
    simp only [List.length_cons]
    congr 1
    simp
    omega

/-! ### Sync characterization lemmas -/

theorem sync_empty (env : SyncEnv) (st0 : TargetState) (fuel : Nat)
    (h : syncEmails env fuel = []) :
    sync env st0 fuel =
      { result := ⟨0, 0, 0, 0, [], env.startMs, env.endMs, env.endMs - env.startMs⟩,
        finalState := st0, saveArg := none, markerWritten := none } := by
  have he : (syncEmails env fuel).isEmpty = true := by simp [h]
  simp only [sync, he, if_true, h]
  rfl

theorem sync_nonempty (env : SyncEnv) (st0 : TargetState) (fuel : Nat)
    (h : syncEmails env fuel ≠ []) :
    sync env st0 fuel =
      { result := ⟨(syncEmails env fuel).length,
          (processBatch env.toEnv st0 (syncEmails env fuel) env.batchSize).2.processed,
          (processBatch env.toEnv st0 (syncEmails env fuel) env.batchSize).2.failed,
          (processBatch env.toEnv st0 (syncEmails env fuel) env.batchSize).2.skipped,
          (processBatch env.toEnv st0 (syncEmails env fuel) env.batchSize).2.failedIds,
          env.startMs, env.endMs, env.endMs - env.startMs⟩,
        finalState := (processBatch env.toEnv st0 (syncEmails env fuel) env.batchSize).1,
        saveArg := some env.startMs,
        markerWritten := if env.saveFails then none else some env.startMs } := by
  have he : (syncEmails env fuel).isEmpty = false := List.isEmpty_eq_false.mpr h
  simp only [sync, he, Bool.false_eq_true, if_false]

/-! ### The skipped branch is unreachable -/

theorem processEmail_not_skip (env : Env) (st : TargetState) (e : MarketoEmail) :
    (processEmail env st e).2 ≠ (⟨true, none⟩ : ProcResult) := by
  unfold processEmail
  split_ifs <;> simp

theorem traceSkipped_zero (env : Env) (emails : List MarketoEmail) :
    ∀ st, traceSkipped (processTrace env st emails) = 0 := by
  induction emails with
  | nil => intro st; rfl
  | cons e rest ih =>
    intro st
    show traceSkipped ((e, (processEmail env st e).2) ::
      processTrace env (processEmail env st e).1 rest) = 0
    unfold traceSkipped at *
    rw [List.countP_cons]
    have h := processEmail_not_skip env st e
    have hz : ((processEmail env st e).2.success &&
        (processEmail env st e).2.node.isNone) = false := by
      rcases hr : (processEmail env st e).2 with ⟨s, n⟩
      rw [hr] at h
      cases s <;> cases n <;> simp_all
    rw [ih (processEmail env st e).1]
    simp [hz]

theorem processBatch_skipped_zero (env : Env) (st : TargetState)
    (emails : List MarketoEmail) (bs : Nat) :
    (processBatch env st emails bs).2.skipped = 0 := by
  rw [processBatch_eq_processList, processList_counts]
  simp [traceSkipped_zero]

/-! ### Per-item failure lemmas -/

theorem processEmail_noHtml (env : Env) (st : TargetState) (e : MarketoEmail)
    (h : hasHtml (env.content e.id) = false) :
    (processEmail env st e).2 = (⟨false, none⟩ : ProcResult) := by
  unfold processEmail
  rw [if_neg (by simp [h])]

theorem processTrace_snd (env : Env) (emails : List MarketoEmail) :
    ∀ st, ∀ p ∈ processTrace env st emails,
      ∃ st2, p.2 = (processEmail env st2 p.1).2 := by
  induction emails with
  | nil => intro st p hp; cases hp
  | cons e rest ih =>
    intro st p hp
    rcases List.mem_cons.mp hp with rfl | hp
    · exact ⟨st, rfl⟩
    · exact ih _ p hp

theorem trace_mem_failedIds (tr : List (MarketoEmail × ProcResult))
    (e : MarketoEmail) (r : ProcResult) (hm : (e, r) ∈ tr)
    (hr : r.success = false) : e.id ∈ traceFailedIds tr := by
  unfold traceFailedIds
  refine List.mem_map.mpr ⟨(e, r), ?_, rfl⟩
  refine List.mem_filter.mpr ⟨hm, ?_⟩
  simp [hr]

/-! ## Claim theorems -/

/-- C5: for every candidate, the computed archive placement is the path
[year, month, sanitizedGroupLabel] derived from createdAt and the group
label; an absent group label yields the literal group Uncategorized; after
sanitization no path segment and no file name contains any of the reserved
characters, each having been replaced by a dash. -/
theorem c5_archive_placement (e : MarketoEmail) :
    folderSegments e =
      [pad4 e.createdAt.year, pad2 e.createdAt.month, sanitize (campaignName e)] ∧
    (∀ (i : Nat) (n : String) (d : JSDate) (u : Int),
      campaignName ⟨i, n, d, u, none⟩ = "Uncategorized") ∧
    (∀ seg ∈ folderSegments e, ∀ c ∈ seg.data, c ∉ reservedChars) ∧
    (∀ c ∈ (emailFileName e).data, c ∉ reservedChars) := by
  refine ⟨folderSegments_eq e, fun i n d u => rfl, ?_, ?_⟩
  · intro seg hseg c hc
    rw [folderSegments_eq e] at hseg
    simp only [List.mem_cons, List.not_mem_nil, or_false] at hseg
    rcases hseg with rfl | rfl | rfl
    · exact pad4_not_reserved _ c hc
    · exact pad2_not_reserved _ c hc
    · exact sanitize_not_reserved _ c hc
  · intro c hc
    have hd : (emailFileName e).data =
        ((natToStr e.id).data ++ ("-" : String).data ++ (sanitize e.name).data)
          ++ (".html" : String).data := by
      simp [emailFileName]
    rw [hd] at hc
    rw [List.mem_append, List.mem_append, List.mem_append] at hc
    rcases hc with ((h | h) | h) | h
    · exact natToStr_not_reserved _ c h
    · have hc2 : c = '-' := by simpa using h
      rw [hc2]; decide
    · exact sanitize_not_reserved _ c h
    · have hc2 : c ∈ ['.', 'h', 't', 'm', 'l'] := h
      fin_cases hc2 <;> decide

/-- C3: for every candidate list of N items, the batch loop visits all N
items in order (no failure aborts the batch), the failed counter equals the
number K of items whose materialization failed in the run, failedIds lists
exactly those K ids in order, the other N minus K candidates are counted as
successes, and an item whose content fetch yields no html body is always
among the failed ids. -/
theorem c3_partial_failure_containment (env : Env) (st : TargetState)
    (emails : List MarketoEmail) (bs : Nat) :
    (processTrace env st emails).map Prod.fst = emails ∧
    (processBatch env st emails bs).2.failed =
      traceFailed (processTrace env st emails) ∧
    (processBatch env st emails bs).2.failedIds =
      traceFailedIds (processTrace env st emails) ∧
    (processBatch env st emails bs).2.processed +
        (processBatch env st emails bs).2.skipped =
      emails.length - traceFailed (processTrace env st emails) ∧
    (∀ e ∈ emails, hasHtml (env.content e.id) = false →
      e.id ∈ (processBatch env st emails bs).2.failedIds) := by
  have hb := processBatch_eq_processList env st emails bs
  have hc := processList_counts env emails st ⟨0, 0, 0, []⟩
  have hfst := processTrace_fst env emails st
  have hlen : (processTrace env st emails).length = emails.length := by
    have h := congrArg List.length hfst
    rwa [List.length_map] at h
  have hpart := trace_partition (processTrace env st emails)
  refine ⟨hfst, ?_, ?_, ?_, ?_⟩
  · rw [hb, hc]
    simp
  · rw [hb, hc]
    simp
  · rw [hb, hc]
    have hz := traceSkipped_zero env emails st
    simp
    omega
  · intro e he hbad
    rw [hb, hc]
    have hmem : e ∈ (processTrace env st emails).map Prod.fst := by rw [hfst]; exact he
    obtain ⟨p, hp, hpe⟩ := List.mem_map.mp hmem
    obtain ⟨st2, hsnd⟩ := processTrace_snd env emails st p hp
    have hfail : p.2.success = false := by
      rw [hsnd, hpe, processEmail_noHtml env st2 e hbad]
    have hin : p.1.id ∈ traceFailedIds (processTrace env st emails) := by
      rcases p with ⟨pe, pr⟩
      exact trace_mem_failedIds _ pe pr hp hfail
    rw [hpe] at hin
    simpa using hin

/-- C6: every SyncResult returned by sync satisfies the counter equation:
totalEmails equals processedEmails plus failedEmails plus skippedEmails,
because each candidate is counted in exactly one classification branch of
the batch loop. -/
theorem c6_counter_equation (env : SyncEnv) (st0 : TargetState) (fuel : Nat) :
    (sync env st0 fuel).result.totalEmails =
      (sync env st0 fuel).result.processedEmails +
        (sync env st0 fuel).result.failedEmails +
        (sync env st0 fuel).result.skippedEmails := by
  by_cases h : syncEmails env fuel = []
  · rw [sync_empty env st0 fuel h]
    rfl
  · rw [sync_nonempty env st0 fuel h]
    have hb := processBatch_eq_processList env.toEnv st0 (syncEmails env fuel) env.batchSize
    have hc := processList_counts env.toEnv (syncEmails env fuel) st0 ⟨0, 0, 0, []⟩
    have hlen : (processTrace env.toEnv st0 (syncEmails env fuel)).length =
        (syncEmails env fuel).length := by
      have hh := congrArg List.length (processTrace_fst env.toEnv (syncEmails env fuel) st0)
      rwa [List.length_map] at hh
    have hpart := trace_partition (processTrace env.toEnv st0 (syncEmails env fuel))
    simp only [hb, hc]
    simp
    omega

/-- C9: a failure while saving the sync marker never propagates out of
sync and never changes the returned result or the repository state the run
produced: the whole observable output besides the durable marker is the
same whether or not the save fails (the error is swallowed inside
saveSyncState). -/
theorem c9_save_failure_swallowed (env : SyncEnv) (st0 : TargetState) (fuel : Nat) :
    (sync { env with saveFails := true } st0 fuel).result =
      (sync env st0 fuel).result ∧
    (sync { env with saveFails := true } st0 fuel).finalState =
      (sync env st0 fuel).finalState ∧
    (sync { env with saveFails := true } st0 fuel).saveArg =
      (sync env st0 fuel).saveArg := by
  by_cases h : syncEmails env fuel = []
  · have h2 : syncEmails { env with saveFails := true } fuel = [] := h
    rw [sync_empty _ _ _ h2, sync_empty _ _ _ h]
    exact ⟨rfl, rfl, rfl⟩
  · have h2 : syncEmails { env with saveFails := true } fuel ≠ [] := h
    rw [sync_nonempty _ _ _ h2, sync_nonempty _ _ _ h]
    exact ⟨rfl, rfl, rfl⟩

/-- C10: the skipped counter of every run is zero: processEmail never
returns success without a node (the already-archived case returns the
existing node), so the skipped branch of the batch classifier is
unreachable and already-existing items are counted as processed. -/
theorem c10_skipped_always_zero :
    (∀ (env : Env) (st : TargetState) (e : MarketoEmail),
      (processEmail env st e).2 ≠ (⟨true, none⟩ : ProcResult)) ∧
    (∀ (env : SyncEnv) (st0 : TargetState) (fuel : Nat),
      (sync env st0 fuel).result.skippedEmails = 0) := by
  refine ⟨processEmail_not_skip, ?_⟩
  intro env st0 fuel
  by_cases h : syncEmails env fuel = []
  · rw [sync_empty env st0 fuel h]
  · rw [sync_nonempty env st0 fuel h]
    exact processBatch_skipped_zero _ _ _ _

/-- C4: change-set resolution uses the stored lastSyncTimestamp as the
lower bound when the sync state is present and the lookback instant when
it is absent, and the candidate list getEmailsSince returns is exactly the
fetched items whose updatedAt is at least that bound (ties at the boundary
are kept, the comparison being greater-or-equal). -/
theorem c4_changeset_resolution (lookbackMs : Int) (server : Nat → MarketoPage)
    (since : Int) (fuel : Nat) :
    (∀ t, resolveSince (some t) lookbackMs = t) ∧
    resolveSince none lookbackMs = lookbackMs ∧
    getEmailsSince server since fuel =
      (fetchedItems server fuel).filter (fun e => decide (since ≤ e.updatedAt)) :=
  ⟨fun _ => rfl, rfl, getEmailsSinceGo_filter server since fuel 0⟩

/-- C1: for every sync run that processes a non-empty candidate list, the
timestamp handed to saveSyncState — and hence the value durably written to
the sync marker whenever the write lands — equals the run start instant
captured by the now() call at the top of sync, never any other instant
such as the run end. -/
theorem c1_watermark_is_start (env : SyncEnv) (st0 : TargetState) (fuel : Nat)
    (hne : syncEmails env fuel ≠ []) :
    (sync env st0 fuel).saveArg = some env.startMs ∧
    (env.saveFails = false → (sync env st0 fuel).markerWritten = some env.startMs) ∧
    (∀ t, (sync env st0 fuel).markerWritten = some t → t = env.startMs) := by
  rw [sync_nonempty env st0 fuel hne]
  refine ⟨rfl, ?_, ?_⟩
  · intro hs
    simp [hs]
  · intro t ht
    cases hs : env.saveFails with
    | true => rw [hs] at ht; simp at ht
    | false =>
      rw [hs] at ht
      simp at ht
      omega

/-- Concrete run for the C1 witness: one page with one candidate inside
the window, good content, no failures. -/
def c1Email : MarketoEmail := ⟨1, "A", ⟨0, 2024, 1⟩, 5, none⟩

def c1Env : SyncEnv :=
  ⟨100, 200, none, 0, fun _ => ⟨true, some [c1Email], some false⟩,
    fun _ => some ⟨some "<p>", none, none, none⟩, fun _ => false, 50, false⟩

theorem c1_watermark_is_start_witness :
    syncEmails c1Env 1 ≠ [] ∧
    (sync c1Env ⟨[], []⟩ 1).saveArg = some c1Env.startMs :=
  ⟨by decide, (c1_watermark_is_start c1Env ⟨[], []⟩ 1 (by decide)).1⟩

/-- C2: running sync twice in succession with no new or modified source
data between the runs creates no duplicate nodes: when every candidate of
the first run materializes successfully and the second run fetches (with
the same content oracle) only candidates the first run already handled,
the second run leaves the repository state exactly as the first run left
it, reports zero failures and zero skips, counts every candidate as
processed, and each candidate resolves through the name-existence check to
the node the first run uploaded, uploading nothing. -/
theorem c2_second_run_idempotent (env1 env2 : SyncEnv) (st0 : TargetState)
    (fuel1 fuel2 : Nat)
    (hc : env2.content = env1.content)
    (hgood : ∀ e ∈ syncEmails env1 fuel1, goodEmail env1.toEnv e)
    (hsub : ∀ e ∈ syncEmails env2 fuel2, e ∈ syncEmails env1 fuel1) :
    (sync env2 (sync env1 st0 fuel1).finalState fuel2).finalState =
      (sync env1 st0 fuel1).finalState ∧
    (sync env2 (sync env1 st0 fuel1).finalState fuel2).result.failedEmails = 0 ∧
    (sync env2 (sync env1 st0 fuel1).finalState fuel2).result.skippedEmails = 0 ∧
    (sync env2 (sync env1 st0 fuel1).finalState fuel2).result.processedEmails =
      (syncEmails env2 fuel2).length ∧
    ∀ e ∈ syncEmails env2 fuel2,
      processEmail env2.toEnv (sync env1 st0 fuel1).finalState e =
        ((sync env1 st0 fuel1).finalState, ⟨true, some (htmlNodeRef e)⟩) := by
  have harch : ∀ e ∈ syncEmails env2 fuel2,
      hasHtml (env2.content e.id) = true ∧
        archivedIn (sync env1 st0 fuel1).finalState e := by
    intro e he2
    have he1 := hsub e he2
    have hg := hgood e he1
    have hne1 : syncEmails env1 fuel1 ≠ [] := by
      intro hnil
      rw [hnil] at he1
      cases he1
    refine ⟨by rw [hc]; exact hg.1, ?_⟩
    rw [sync_nonempty env1 st0 fuel1 hne1]
    have hb := processBatch_eq_processList env1.toEnv st0 (syncEmails env1 fuel1)
      env1.batchSize
    have hcov := processList_covers env1.toEnv (syncEmails env1 fuel1)
      (st0, ⟨0, 0, 0, []⟩) hgood e he1
    simpa [hb] using hcov
  by_cases h2 : syncEmails env2 fuel2 = []
  · rw [sync_empty env2 _ fuel2 h2]
    refine ⟨rfl, rfl, rfl, by rw [h2]; rfl, ?_⟩
    intro e he
    rw [h2] at he
    cases he
  · have hall : ∀ e ∈ syncEmails env2 fuel2,
        hasHtml (env2.toEnv.content e.id) = true ∧
          archivedIn (sync env1 st0 fuel1).finalState e := harch
    have hlist := processList_all_already env2.toEnv (sync env1 st0 fuel1).finalState
      (syncEmails env2 fuel2) hall ⟨0, 0, 0, []⟩
    rw [sync_nonempty env2 _ fuel2 h2]
    have hb := processBatch_eq_processList env2.toEnv (sync env1 st0 fuel1).finalState
      (syncEmails env2 fuel2) env2.batchSize
    refine ⟨?_, ?_, ?_, ?_, ?_⟩
    · simp [hb, hlist]
    · simp [hb, hlist]
    · simp [hb, hlist]
    · simp [hb, hlist]
    · intro e he
      exact processEmail_already env2.toEnv _ e (harch e he).1 (harch e he).2

/-- Concrete run for the C2 witness: the same environment used for both
runs, one candidate with good content. -/
def c2Email : MarketoEmail := ⟨3, "C", ⟨0, 2024, 2⟩, 7, some "camp"⟩

def c2Env : SyncEnv :=
  ⟨10, 20, none, 0, fun _ => ⟨true, some [c2Email], some false⟩,
    fun _ => some ⟨some "<p>hi", none, none, none⟩, fun _ => false, 50, false⟩

theorem c2_env_good : ∀ e ∈ syncEmails c2Env 1, goodEmail c2Env.toEnv e := by
  intro e he
  have hl : syncEmails c2Env 1 = [c2Email] := by decide
  rw [hl] at he
  have he2 : e = c2Email := by simpa using he
  rw [he2]
  exact ⟨by decide, by decide⟩

theorem c2_second_run_idempotent_witness :
    c2Env.content = c2Env.content ∧
    (∀ e ∈ syncEmails c2Env 1, goodEmail c2Env.toEnv e) ∧
    (∀ e ∈ syncEmails c2Env 1, e ∈ syncEmails c2Env 1) ∧
    (sync c2Env (sync c2Env ⟨[], []⟩ 1).finalState 1).finalState =
      (sync c2Env ⟨[], []⟩ 1).finalState ∧
    (sync c2Env (sync c2Env ⟨[], []⟩ 1).finalState 1).result.failedEmails = 0 := by
  have h := c2_second_run_idempotent c2Env c2Env ⟨[], []⟩ 1 1 rfl c2_env_good
    (fun e he => he)
  exact ⟨rfl, c2_env_good, fun e he => he, h.1, h.2.1⟩

/-- C7 counterexample: the fetch loop can stop while the continuation
signal is present. Page 0 of this server is an unsuccessful response that
still carries moreResult true; the loop requests only page 0 — for any
fuel, so the loop really stopped on its own — even though that page
signalled continuation, and the successful page 1 inside the window is
never fetched. The claim, which says the loop stops requesting further
pages only when a page carries no continuation signal, is therefore false
of the code: the break on an unsuccessful or result-less response also
stops it. -/
def c7Email : MarketoEmail := ⟨2, "B", ⟨0, 2024, 1⟩, 9, none⟩

def c7Server : Nat → MarketoPage := fun i =>
  if i = 0 then ⟨false, some [c7Email], some true⟩
  else ⟨true, some [c7Email], some false⟩

theorem c7_pagination_stop_counterexample :
    requestCount c7Server 0 10 = 1 ∧
    requestCount c7Server 0 100 = 1 ∧
    (c7Server 0).moreResult = some true ∧
    (c7Server (requestCount c7Server 0 10 - 1)).moreResult = some true ∧
    (c7Server 1).success = true ∧
    getEmailsSince c7Server 0 10 = [] := by decide

/-- C7 (amended): the candidate-fetch loop fully drains pagination:
whenever some page k stops the loop (it carries no continuation signal, or
it is an unsuccessful or result-less response) and the iteration bound
exceeds k, the loop result no longer depends on the bound (it terminated
on its own), at least one and at most k+1 pages are requested, every page
before the last requested one was a successful page with a result array
and moreResult true — so no page within the window is left unfetched when
all its pages are successful — and the last requested page is one that
stops the loop: either its moreResult is not true, or it failed. -/
theorem c7_pagination_drain (server : Nat → MarketoPage) (since : Int)
    (k fuel : Nat) (hstop : pageStops (server k) = true) (hfuel : k < fuel) :
    getEmailsSinceGo server since 0 fuel = getEmailsSinceGo server since 0 (k + 1) ∧
    1 ≤ requestCount server since fuel ∧
    requestCount server since fuel ≤ k + 1 ∧
    (∀ i, i + 1 < requestCount server since fuel →
      (server i).success = true ∧ (server i).result.isSome = true ∧
        (server i).moreResult = some true) ∧
    pageStops (server (requestCount server since fuel - 1)) = true := by
  have hs := getEmailsSinceGo_stable server since k 0 fuel (k + 1)
    (by simpa using hstop) hfuel (by omega)
  obtain ⟨h1, h2, h3, h4⟩ := getEmailsSinceGo_count_spec server since k 0 fuel
    (by simpa using hstop) hfuel
  refine ⟨hs, h1, h2, ?_, by simpa using h3⟩
  intro i hi
  have hfalse := h4 i hi
  obtain ⟨hsucc, ⟨items, hres⟩, hmore⟩ := pageStops_false _ (by simpa using hfalse)
  exact ⟨hsucc, by simp [hres], hmore⟩

def c7bServer : Nat → MarketoPage := fun i =>
  if i = 0 then ⟨true, some [c7Email], some true⟩
  else ⟨true, some [], some false⟩

theorem c7_pagination_drain_witness :
    pageStops (c7bServer 1) = true ∧ 1 < 5 ∧
    (getEmailsSinceGo c7bServer 9 0 5 = getEmailsSinceGo c7bServer 9 0 2 ∧
     1 ≤ requestCount c7bServer 9 5 ∧
     requestCount c7bServer 9 5 ≤ 2 ∧
     (∀ i, i + 1 < requestCount c7bServer 9 5 →
       (c7bServer i).success = true ∧ (c7bServer i).result.isSome = true ∧
         (c7bServer i).moreResult = some true) ∧
     pageStops (c7bServer (requestCount c7bServer 9 5 - 1)) = true) :=
  ⟨by decide, by decide, c7_pagination_drain c7bServer 9 1 5 (by decide) (by decide)⟩

/-- C8: an operation that fails at every attempt makes the retry executor
of utils/retry.ts raise after exactly 3 attempts under the default
options, the propagated error is the third (last) attempt's original error
unchanged, and before each of the two non-final retries it waits
calculateDelay, that is min(initialDelay times multiplier to the power
attempt minus one, maxDelay). -/
theorem c8_retry_exhaustion {E A : Type} (op : Nat → Except E A) (errs : Nat → E)
    (hfail : ∀ n, op n = .error (errs n)) :
    (retryExec op defaultRetryOptions).outcome = .error (some (errs 3)) ∧
    (retryExec op defaultRetryOptions).attemptsMade = 3 ∧
    (retryExec op defaultRetryOptions).delays =
      [calculateDelay 1 defaultRetryOptions, calculateDelay 2 defaultRetryOptions] ∧
    calculateDelay 1 defaultRetryOptions =
      min (defaultRetryOptions.initialDelayMs *
        defaultRetryOptions.backoffMultiplier ^ (1 - 1)) defaultRetryOptions.maxDelayMs ∧
    calculateDelay 2 defaultRetryOptions =
      min (defaultRetryOptions.initialDelayMs *
        defaultRetryOptions.backoffMultiplier ^ (2 - 1)) defaultRetryOptions.maxDelayMs := by
  have h3 : retryLoop op defaultRetryOptions 3 = ⟨.error (some (errs 3)), [], 1⟩ := by
    rw [retryLoop, dif_pos (by decide), hfail 3]
    dsimp only
    rw [if_pos (by decide)]
  have h2 : retryLoop op defaultRetryOptions 2 =
      ⟨.error (some (errs 3)), [calculateDelay 2 defaultRetryOptions], 2⟩ := by
    rw [retryLoop, dif_pos (by decide), hfail 2]
    dsimp only
    rw [if_neg (by decide), h3]
  have h1 : retryExec op defaultRetryOptions =
      ⟨.error (some (errs 3)),
        [calculateDelay 1 defaultRetryOptions, calculateDelay 2 defaultRetryOptions],
        3⟩ := by
    show retryLoop op defaultRetryOptions 1 = _
    rw [retryLoop, dif_pos (by decide), hfail 1]
    dsimp only
    rw [if_neg (by decide), h2]
  rw [h1]
  exact ⟨rfl, rfl, rfl, rfl, rfl⟩

theorem c8_retry_exhaustion_witness :
    (∀ n, (fun k => (Except.error k : Except Nat Unit)) n = .error n) ∧
    (retryExec (fun k => (Except.error k : Except Nat Unit))
      defaultRetryOptions).outcome = .error (some 3) ∧
    (retryExec (fun k => (Except.error k : Except Nat Unit))
      defaultRetryOptions).attemptsMade = 3 ∧
    (retryExec (fun k => (Except.error k : Except Nat Unit))
      defaultRetryOptions).delays = [1000, 2000] := by
  have h := c8_retry_exhaustion (fun k => (Except.error k : Except Nat Unit))
    (fun n => n) (fun n => rfl)
  refine ⟨fun n => rfl, h.1, h.2.1, ?_⟩
  rw [h.2.2.1]
  decide

end MktoFresco
